import Mathlib

/-!
Shallow embedding of the document-chunking and chat-orchestration core of the
go-agent repository (packages `ingestion` and `chat`), together with theorems
settling the frozen claims about it.

Conventions of the embedding:
* Go strings become Lean `String`; `len(s)` becomes the character count
  `s.data.length` (Go counts bytes; the two agree on the ASCII inputs of every
  concrete statement below, and both are additive over concatenation).
* The Go standard-library string helpers (`strings.TrimSpace`, `strings.Split`,
  `strings.ReplaceAll`, `strings.ToLower`, `strings.Contains`,
  `strings.HasPrefix`, `fmt.Sprintf("%d", ·)`) are embedded as the structurally
  recursive functions `goTrim`, `goSplitLines`, `replaceCRLF`, `goToLower`,
  `stringsContains`, `goHasPrefix` and `goIntToString` over the underlying
  character lists.
* Go `int` becomes `Int`; `float64` scores and weights become `ℚ` (the code
  only copies and compares them).
* Go maps used as sets or as insertion-keyed groupings become lists kept in
  insertion order; the only map whose iteration order reaches an output
  (`grouped` in `mergeSources`) does so upstream of a sort, and every claim
  proved about that output is invariant under the pre-sort order.
* Fallible operations and external services (`embedder`, vector store, graph
  store, LLM) become `Except String`-returning function parameters.
-/

namespace GoAgent

/-! ### Go string primitives -/

/-- Go `unicode.IsSpace` on the characters relevant to `strings.TrimSpace`
(ASCII whitespace plus NEL and NBSP). -/
def goIsSpace (c : Char) : Bool :=
  c = ' ' || c = '\t' || c = '\n' || (c = Char.ofNat 11) || (c = Char.ofNat 12) ||
    c = '\r' || c = Char.ofNat 0x85 || c = Char.ofNat 0xA0

/-- Go `strings.TrimSpace`: drop whitespace from both ends. -/
def goTrim (s : String) : String :=
  String.mk ((((s.data.dropWhile goIsSpace).reverse).dropWhile goIsSpace).reverse)

/-- Go `len` on a string (character-level model of the byte count). -/
def goLen (s : String) : Nat := s.data.length

/-- Helper of `goSplitLines`: accumulate the current field (reversed). -/
def goSplitLinesAux : List Char → List Char → List String
  | [], cur => [String.mk cur.reverse]
  | c :: rest, cur =>
    if c = '\n' then String.mk cur.reverse :: goSplitLinesAux rest []
    else goSplitLinesAux rest (c :: cur)

/-- Go `strings.Split(s, "\n")`. -/
def goSplitLines (s : String) : List String := goSplitLinesAux s.data []

/-- Go `strings.ReplaceAll(s, "\r\n", "\n")`, at the character level. -/
def replaceCRLF : List Char → List Char
  | '\r' :: '\n' :: rest => '\n' :: replaceCRLF rest
  | c :: rest => c :: replaceCRLF rest
  | [] => []

/-- Go `strings.ToLower` on one character (ASCII mapping). -/
def goCharToLower (c : Char) : Char :=
  if 'A' ≤ c ∧ c ≤ 'Z' then Char.ofNat (c.toNat + 32) else c

/-- Go `strings.ToLower` (ASCII mapping). -/
def goToLower (s : String) : String := String.mk (s.data.map goCharToLower)

/-- Go `strings.HasPrefix(s, pre)`. -/
def goHasPrefix (s pre : String) : Bool := pre.data.isPrefixOf s.data

/-- Go `strings.Contains(s, sub)`, at the character level. -/
def stringsContains (s sub : String) : Bool :=
  decide (sub.data <:+: s.data)

/-- Go `strings.Join xs sep`. -/
def stringsJoin (sep : String) : List String → String
  | [] => ""
  | [t] => t
  | t :: ts => t ++ sep ++ stringsJoin sep ts

/-- Decimal digits of a `Nat`, most significant first; the first argument is
recursion fuel (any fuel larger than the digit count gives the digits). -/
def natToCharsAux : Nat → Nat → List Char → List Char
  | 0, _, acc => acc
  | fuel + 1, n, acc =>
    if n < 10 then Char.ofNat (48 + n) :: acc
    else natToCharsAux fuel (n / 10) (Char.ofNat (48 + n % 10) :: acc)

/-- Decimal rendering of a `Nat`. -/
def goNatToString (n : Nat) : String := String.mk (natToCharsAux (n + 1) n [])

/-- Go `fmt.Sprintf("%d", i)` for an `int`. -/
def goIntToString : Int → String
  | .ofNat n => goNatToString n
  | .negSucc n => "-" ++ goNatToString (n + 1)

/-! ### `ingestion`: chunking -/

/-- `SectionMeta` from `ingestion`: section title, heading level, order. -/
structure SectionMeta where
  Title : String
  Level : Int
  Order : Int
deriving DecidableEq, Inhabited

/-- `TopicMeta` from `ingestion`. -/
structure TopicMeta where
  Name : String
deriving DecidableEq, Inhabited

/-- `ChunkFragment` from `ingestion`: a chunk's text and its section. -/
structure ChunkFragment where
  Text : String
  Section : SectionMeta
deriving DecidableEq, Inhabited

/-- `paragraphWithSection` from `ingestion/service.go`. -/
structure paragraphWithSection where
  Text : String
  Section : SectionMeta
deriving DecidableEq, Inhabited

/-- `defaultChunkSize` constant from `ingestion/service.go`. -/
def defaultChunkSize : Int := 1000

/-- `defaultChunkOverlap` constant from `ingestion/service.go`. -/
def defaultChunkOverlap : Int := 200

/-- `buildChunkFragment` from `ingestion/service.go`: join the unit texts with
a blank line and attribute the fragment to the highest-order section among its
units (a non-empty title beats the default order-0 section). -/
def buildChunkFragment (paragraphs : List paragraphWithSection) : ChunkFragment :=
  let sec := paragraphs.foldl
    (fun s p =>
      if p.Section.Order > s.Order ∨ (s.Order = 0 ∧ p.Section.Title ≠ "") then p.Section else s)
    ⟨"Introduction", 1, 0⟩
  ⟨stringsJoin "\n\n" (paragraphs.map (·.Text)), sec⟩

/-- The buffer loop of `chunkParagraphs` (`ingestion/service.go`), returning
the list of flushed buffers (each buffer is turned into one fragment by
`buildChunkFragment`).  `cur` is the running buffer, `curLen` the accumulated
length the Go code tracks, `acc` the flushed buffers so far.  On flush with
`overlap > 0` the new buffer is seeded with the last unit of the flushed one;
the incoming unit is then appended unconditionally, exactly as in the source. -/
def chunkGroupsLoop (target overlap : Int) :
    List paragraphWithSection → List paragraphWithSection → Int →
    List (List paragraphWithSection) → List (List paragraphWithSection)
  | [], cur, _, acc => if cur.isEmpty then acc else acc ++ [cur]
  | p :: rest, cur, curLen, acc =>
    let pLen : Int := goLen p.Text
    if curLen + pLen > target ∧ ¬ cur.isEmpty then
      if overlap > 0 then
        let last := cur.getLastD default
        chunkGroupsLoop target overlap rest [last, p] ((goLen last.Text : Int) + pLen)
          (acc ++ [cur])
      else
        chunkGroupsLoop target overlap rest [p] pLen (acc ++ [cur])
    else
      chunkGroupsLoop target overlap rest (cur ++ [p]) (curLen + pLen) acc

/-- The buffers flushed by `chunkParagraphs` after normalising `target`
(fall back to `defaultChunkSize` when ≤ 0) and `overlap` (clamp negatives
to 0), as the source does on entry. -/
def chunkGroups (paragraphs : List paragraphWithSection) (target overlap : Int) :
    List (List paragraphWithSection) :=
  let t := if target ≤ 0 then defaultChunkSize else target
  let o := if overlap < 0 then 0 else overlap
  chunkGroupsLoop t o paragraphs [] 0 []

/-- `chunkParagraphs` from `ingestion/service.go`: each flushed buffer becomes
one fragment via `buildChunkFragment`. -/
def chunkParagraphs (paragraphs : List paragraphWithSection) (target overlap : Int) :
    List ChunkFragment :=
  (chunkGroups paragraphs target overlap).map buildChunkFragment

/-- `headingLevel` from `ingestion/service.go`: count leading `#`, floor 1,
cap 6. -/
def headingLevel (line : String) : Nat :=
  let n := (line.data.takeWhile (· = '#')).length
  if n = 0 then 1 else if n > 6 then 6 else n

/-- `ExtractTitle` from `ingestion/service.go`, written as the source's loop:
return at the first line whose trimmed form starts with `#`, stripping all
leading `#` (Go `strings.TrimLeft(trimmed, "#")`) and trimming again. -/
def extractTitleLoop : List String → Option String
  | [] => none
  | l :: rest =>
    let trimmed := goTrim l
    if goHasPrefix trimmed "#" then
      some (goTrim (String.mk (trimmed.data.dropWhile (· = '#'))))
    else
      extractTitleLoop rest

/-- `ExtractTitle(content, fallback)` from `ingestion/service.go`. -/
def ExtractTitle (content fallback : String) : String :=
  (extractTitleLoop (goSplitLines content)).getD fallback

/-- The mutable state of the line loop inside `ChunkMarkdown`
(`ingestion/service.go`): the intro section's (mutable) title, the current
section, the running section counter, and the accumulated sections,
paragraph units, topic names seen (the Go `topicsSet` map, kept as a list)
and topics. -/
structure MdState where
  introTitle : String
  currentSection : SectionMeta
  sectionOrder : Int
  sections : List SectionMeta
  paragraphs : List paragraphWithSection
  topicsSeen : List String
  topics : List TopicMeta
  introUsed : Bool
deriving DecidableEq

/-- Initial state of the `ChunkMarkdown` line loop. -/
def mdInit : MdState :=
  { introTitle := "Introduction"
    currentSection := ⟨"Introduction", 1, 0⟩
    sectionOrder := 0
    sections := []
    paragraphs := []
    topicsSeen := []
    topics := []
    introUsed := false }

/-- One iteration of the `ChunkMarkdown` line loop over a raw line. -/
def mdStep (st : MdState) (raw : String) : MdState :=
  let line := goTrim raw
  if line = "" then st
  else if goHasPrefix line "#" then
    let lvl := headingLevel line
    let title := goTrim (String.mk (line.data.drop lvl))
    if title = "" then st
    else if lvl ≤ 1 then
      let cs : SectionMeta := ⟨title, 1, 0⟩
      { st with
        introTitle := title
        currentSection := cs
        paragraphs := st.paragraphs ++ [⟨title, cs⟩]
        introUsed := true }
    else
      let cs : SectionMeta := ⟨title, (lvl : Int), st.sectionOrder + 1⟩
      let addTopic := lvl = 2 ∧ ¬ st.topicsSeen.contains title
      { st with
        sectionOrder := st.sectionOrder + 1
        currentSection := cs
        sections := st.sections ++ [cs]
        topicsSeen := if addTopic then st.topicsSeen ++ [title] else st.topicsSeen
        topics := if addTopic then st.topics ++ [⟨title⟩] else st.topics
        paragraphs := st.paragraphs ++ [⟨title, cs⟩] }
  else
    { st with
      paragraphs := st.paragraphs ++ [⟨line, st.currentSection⟩]
      introUsed := st.introUsed ∨ st.currentSection.Order = 0 }

/-- The lines `ChunkMarkdown` iterates over: CRLF normalised, split on `\n`. -/
def mdLines (content : String) : List String :=
  goSplitLines (String.mk (replaceCRLF content.data))

/-- The state after `ChunkMarkdown`'s line loop. -/
def mdScan (content : String) : MdState :=
  (mdLines content).foldl mdStep mdInit

/-- The paragraph units `ChunkMarkdown` hands to `chunkParagraphs`. -/
def markdownUnits (content : String) : List paragraphWithSection :=
  (mdScan content).paragraphs

/-- `ChunkMarkdown` from `ingestion/service.go`: scan the lines, prepend the
intro section when it was used, and chunk the collected paragraph units. -/
def ChunkMarkdown (content : String) (target overlap : Int) :
    List ChunkFragment × List SectionMeta × List TopicMeta :=
  let st := mdScan content
  let sections :=
    if st.introUsed then (⟨st.introTitle, 1, 0⟩ : SectionMeta) :: st.sections else st.sections
  (chunkParagraphs st.paragraphs target overlap, sections, st.topics)

/-- The paragraph grouping of `ChunkPlainText` (`ingestion/service.go`):
trimmed non-blank lines accumulate into a paragraph, blank lines flush it;
paragraph text joins its lines with `\n`. -/
def plainParagraphsLoop (sec : SectionMeta) :
    List String → List String → List paragraphWithSection
  | [], cur =>
    if cur.isEmpty then [] else [⟨stringsJoin "\n" cur, sec⟩]
  | raw :: rest, cur =>
    let trimmed := goTrim raw
    if trimmed = "" then
      (if cur.isEmpty then [] else [(⟨stringsJoin "\n" cur, sec⟩ : paragraphWithSection)]) ++
        plainParagraphsLoop sec rest []
    else
      plainParagraphsLoop sec rest (cur ++ [trimmed])

/-- `ChunkPlainText` from `ingestion/service.go`. -/
def ChunkPlainText (content title : String) (target overlap : Int) :
    List ChunkFragment × List SectionMeta :=
  let lines := goSplitLines (String.mk (replaceCRLF content.data))
  let sec : SectionMeta := ⟨title, 1, 0⟩
  let paragraphs := plainParagraphsLoop sec lines []
  (chunkParagraphs paragraphs target overlap, [sec])

/-- The topic derivation of `csvParser.Parse` (`ingestion/parsers.go`): every
non-empty trimmed header of the first CSV record becomes a topic, in order and
without deduplication. -/
def csvTopics (headers : List String) : List TopicMeta :=
  headers.foldl (fun acc h => let t := goTrim h; if t = "" then acc else acc ++ [⟨t⟩]) []

/-! ### `chat`: retrieval merge, filters and orchestration -/

/-- `ChunkResult` from the `chat` package (scores modelled as `ℚ`). -/
structure ChunkResult where
  ChunkID : String
  DocumentID : String
  Title : String
  Path : String
  Content : String
  Score : ℚ
  SectionTitle : String
  SectionLevel : Int
  SectionOrder : Int
deriving DecidableEq, Inhabited

/-- `RelatedDocument` from the `chat` package. -/
structure RelatedDocument where
  ID : String
  Title : String
  Path : String
  Weight : ℚ
  Reason : String
deriving DecidableEq, Inhabited

/-- `SectionInfo` from the `chat` package. -/
structure SectionInfo where
  Title : String
  Level : Int
  Order : Int
deriving DecidableEq, Inhabited

/-- `DocumentInsight` from the `chat` package. -/
structure DocumentInsight where
  ChunkCount : Int
  Folders : List String
  RelatedDocuments : List RelatedDocument
  Sections : List SectionInfo
  Topics : List String
deriving DecidableEq, Inhabited

/-- `Source` from the `chat` package. -/
structure Source where
  DocumentID : String
  Title : String
  Path : String
  Snippet : String
  Score : ℚ
  Insight : DocumentInsight
deriving DecidableEq, Inhabited

/-- `Response` from the `chat` package. -/
structure Response where
  Answer : String
  Sources : List Source
deriving DecidableEq, Inhabited

/-- `llm.Message`. -/
structure Message where
  Role : String
  Content : String
deriving DecidableEq, Inhabited

/-- `llm.RoleSystem`. -/
def RoleSystem : String := "system"

/-- `llm.RoleUser`. -/
def RoleUser : String := "user"

/-- `llm.RoleAssistant`. -/
def RoleAssistant : String := "assistant"

/-- The per-chunk update `mergeSources` applies to the chunk's group: trim the
chunk content, truncate to 500 characters with an ellipsis, append to the
snippet unless already contained in it, and overwrite the insight when the
insight map has the document. -/
def applyChunk (insights : List (String × DocumentInsight)) (c : ChunkResult)
    (s : Source) : Source :=
  let snippet := goTrim c.Content
  let snippet :=
    if goLen snippet > 500 then String.mk (snippet.data.take 500) ++ "..." else snippet
  let s :=
    if s.Snippet = "" then { s with Snippet := snippet }
    else if stringsContains s.Snippet snippet then s
    else { s with Snippet := s.Snippet ++ "\n---\n" ++ snippet }
  match insights.lookup c.DocumentID with
  | some ins => { s with Insight := ins }
  | none => s

/-- One iteration of the grouping loop of `mergeSources`: find or create the
chunk's group (the Go `grouped` map, in insertion order), raise its score to
the chunk's when larger, then apply the snippet/insight update. -/
def mergeStep (insights : List (String × DocumentInsight))
    (groups : List Source) (c : ChunkResult) : List Source :=
  if groups.any (·.DocumentID = c.DocumentID) then
    groups.map fun s =>
      if s.DocumentID = c.DocumentID then
        applyChunk insights c { s with Score := if c.Score > s.Score then c.Score else s.Score }
      else s
  else
    groups ++ [applyChunk insights c
      { DocumentID := c.DocumentID, Title := c.Title, Path := c.Path
        Snippet := "", Score := c.Score, Insight := default }]

/-- `mergeSources` from the `chat` package: group chunks by document, then
sort descending by score (Go `sort.Slice` with `Score_i > Score_j`; the
embedding sorts with an insertion sort, which realises the same contract). -/
def mergeSources (chunks : List ChunkResult)
    (insights : List (String × DocumentInsight)) : List Source :=
  let grouped := chunks.foldl (mergeStep insights) []
  grouped.insertionSort (fun a b => b.Score ≤ a.Score)

/-- `normalizeFilters` from the `chat` package: lowercase, trim, drop blanks. -/
def normalizeFilters (filters : List String) : List String :=
  filters.foldl
    (fun acc f => let t := goToLower (goTrim f); if t = "" then acc else acc ++ [t]) []

/-- The per-chunk matching loop of `filterChunksBySections`: the first filter
that is a substring of the (defaulted) lowercased section title, or equals the
decimal rendering of the section order, keeps the chunk. -/
def sectionFilterMatch (normalized : List String) (c : ChunkResult) : Bool :=
  let sectionTitle := goToLower (goTrim c.SectionTitle)
  let sectionTitle := if sectionTitle = "" then "introduction" else sectionTitle
  let order := goIntToString c.SectionOrder
  normalized.any fun f => stringsContains sectionTitle f || (f ≠ "" && order = f)

/-- The chunk loop of `filterChunksBySections`, written as the source's
accumulate-and-append loop. -/
def filterChunksLoop (normalized : List String) :
    List ChunkResult → List ChunkResult → List ChunkResult
  | [], acc => acc
  | c :: rest, acc =>
    if sectionFilterMatch normalized c then filterChunksLoop normalized rest (acc ++ [c])
    else filterChunksLoop normalized rest acc

/-- `filterChunksBySections` from the `chat` package. -/
def filterChunksBySections (chunks : List ChunkResult) (filters : List String) :
    List ChunkResult :=
  let normalized := normalizeFilters filters
  if normalized.isEmpty then chunks
  else filterChunksLoop normalized chunks []

/-- `containsAny` from the `chat` package: some filter is an exact member of
the values, or a substring of some value. -/
def containsAny (values filters : List String) : Bool :=
  filters.any fun f => values.contains f || values.any fun v => stringsContains v f

/-- `filterSourcesByTopics` from the `chat` package. -/
def filterSourcesByTopics (sources : List Source) (filters : List String) :
    List Source :=
  let normalized := normalizeFilters filters
  if normalized.isEmpty then sources
  else
    sources.filter fun s =>
      containsAny (s.Insight.Topics.map fun t => goToLower (goTrim t)) normalized

/-- `unique` from the `chat` package: first-occurrence deduplication. -/
def unique (values : List String) : List String :=
  values.foldl (fun acc v => if acc.contains v then acc else acc ++ [v]) []

/-- `systemPrompt` from the `chat` package. -/
def systemPrompt : String :=
  "You are a helpful assistant. Use the supplied context to enrich and support your response, citing Source numbers in brackets (e.g., [Source 1]) when you draw from it. If the context is missing or not useful, rely on your general knowledge, note any uncertainty, and still deliver the best possible answer. Always answer the question first, then optionally add brief context notes."

/-- `formatUserPrompt` from the `chat` package. -/
def formatUserPrompt (question context : String) : String :=
  "Question:\n" ++ question ++
    (if goTrim context = "" then ""
     else "\nContext (optional, may be incomplete):\n" ++ context) ++
    "\nProvide your answer in markdown. Begin with the direct answer. If you reference the context, cite the relevant Source numbers. Conclude with a short 'Context Notes' section only when you actually used the context."

/-- Go's `fmt.Sprintf("%.2f", w)` on a non-negative weight, modelled to two
decimals. -/
def format2 (q : ℚ) : String :=
  let n := (q * 100).floor.toNat
  goNatToString (n / 100) ++ "." ++
    (if n % 100 < 10 then "0" ++ goNatToString (n % 100) else goNatToString (n % 100))

/-- The per-source block of `buildContextPrompt` from the `chat` package. -/
def sourceBlock (idx : Nat) (source : Source) : String :=
  "Source " ++ goNatToString (idx + 1) ++ ": " ++ source.Title ++ " (" ++ source.Path ++ ")\n" ++
  (if source.Insight.ChunkCount > 0 then
    "Chunks indexed: " ++ goIntToString source.Insight.ChunkCount ++ "\n" else "") ++
  (let parts := (source.Insight.Sections.filter (·.Title ≠ "")).map fun s =>
      s.Title ++ " (level " ++ goIntToString s.Level ++ ")"
   if parts.isEmpty then "" else "Sections: " ++ stringsJoin "; " parts ++ "\n") ++
  (if source.Insight.Topics.isEmpty then "" else
    "Topics: " ++ stringsJoin ", " source.Insight.Topics ++ "\n") ++
  (if source.Insight.Folders.isEmpty then "" else
    "Folders: " ++ stringsJoin ", " source.Insight.Folders ++ "\n") ++
  (if source.Insight.RelatedDocuments.isEmpty then "" else
    "Related documents:\n" ++
      String.join (source.Insight.RelatedDocuments.map fun r =>
        "- " ++ r.Title ++ " (" ++ r.Path ++ ")" ++
          (if r.Weight > 0 then " weight " ++ format2 r.Weight else "") ++
          (if r.Reason ≠ "" then " via " ++ r.Reason else "") ++ "\n")) ++
  source.Snippet ++ "\n\n"

/-- `buildContextPrompt` from the `chat` package. -/
def buildContextPrompt (sources : List Source) : String :=
  String.join ((List.range sources.length).zip sources |>.map fun p => sourceBlock p.1 p.2)

/-- `defaultSimilarityLimit` from the `chat` package. -/
def defaultSimilarityLimit : Int := 5

/-- `chat.Config`. -/
structure Config where
  SimilarityLimit : Int
  SectionFilters : List String
  TopicFilters : List String
deriving DecidableEq, Inhabited

/-- The external dependencies of `chat.Service`: embedder, vector store,
graph store and LLM client, each `none` when the corresponding Go field is
nil, and otherwise a function giving the (deterministic) outcome of a call. -/
structure ChatServices where
  embedder : Option (List String → Except String (List (List ℚ)))
  vectors : Option (List ℚ → Int → Except String (List ChunkResult))
  graph : Option (List String → Except String (List (String × DocumentInsight)))
  llm : Option (List Message → Except String String)

/-- `(*Service).chat` from the `chat` package, on the non-streaming path
(`streamFn == nil`); a graph-insight error is logged and ignored, all other
failures abort the turn. -/
def chat (s : ChatServices) (question : String) (cfg : Config)
    (history : List Message) : Except String (Response × List Message) :=
  let question := goTrim question
  if question = "" then .error "question cannot be empty"
  else
    match s.embedder, s.vectors, s.llm with
    | none, _, _ => .error "embedder is not configured"
    | some _, none, _ => .error "vector store is not configured"
    | some _, some _, none => .error "llm client is not configured"
    | some embed, some similarChunks, some generate =>
      let limit := if cfg.SimilarityLimit ≤ 0 then defaultSimilarityLimit else cfg.SimilarityLimit
      match embed [question] with
      | .error e => .error ("embed question: " ++ e)
      | .ok [] => .error "embedder returned no vectors"
      | .ok (emb :: _) =>
        match similarChunks emb limit with
        | .error e => .error ("vector search: " ++ e)
        | .ok chunks0 =>
          let ctxEmpty := chunks0.isEmpty
          let chunksE : Except String (List ChunkResult) :=
            if cfg.SectionFilters.length > 0 ∧ ¬ ctxEmpty = true then
              let filtered := filterChunksBySections chunks0 cfg.SectionFilters
              if filtered.isEmpty then .error "no chunks matched the requested sections"
              else .ok filtered
            else .ok chunks0
          match chunksE with
          | .error e => .error e
          | .ok chunks =>
            let docIDs := chunks.map (·.DocumentID)
            let insights : List (String × DocumentInsight) :=
              match s.graph with
              | some docInsights =>
                if docIDs.length > 0 then
                  match docInsights (unique docIDs) with
                  | .ok m => m
                  | .error _ => []
                else []
              | none => []
            let sources0 := mergeSources chunks insights
            let sourcesE : Except String (List Source) :=
              if cfg.TopicFilters.length > 0 ∧ sources0.length > 0 then
                let filteredSources := filterSourcesByTopics sources0 cfg.TopicFilters
                if filteredSources.isEmpty then
                  .error "no documents matched the requested topics"
                else .ok filteredSources
              else .ok sources0
            match sourcesE with
            | .error e => .error e
            | .ok sources =>
              let contextPrompt :=
                if sources.length > 0 then buildContextPrompt sources else ""
              let userMessage : Message := ⟨RoleUser, formatUserPrompt question contextPrompt⟩
              let messages :=
                [(⟨RoleSystem, systemPrompt⟩ : Message)] ++ history ++ [userMessage]
              match generate messages with
              | .error e => .error ("llm generate: " ++ e)
              | .ok generated =>
                let answer := goTrim generated
                let assistantMessage : Message := ⟨RoleAssistant, answer⟩
                .ok (⟨answer, sources⟩, history ++ [userMessage, assistantMessage])

/-- `(*Service).Chat`: run a turn with no history, discarding the updated
history. -/
def Chat (s : ChatServices) (question : String) (cfg : Config) :
    Except String Response :=
  (chat s question cfg []).map Prod.fst

/-! ### Helper lemmas -/

/-- The `ExtractTitle` loop returns the stripped title of the first line whose
trimmed form starts with `#`. -/
theorem extractTitleLoop_eq (ls : List String) :
    extractTitleLoop ls =
      (ls.find? fun l => goHasPrefix (goTrim l) "#").map
        (fun l => goTrim (String.mk ((goTrim l).data.dropWhile (· = '#')))) := by
  induction ls with
  | nil => rfl
  | cons l rest ih =>
    by_cases h : goHasPrefix (goTrim l) "#"
    · simp [extractTitleLoop, List.find?_cons_of_pos, h]
    · simp only [Bool.not_eq_true] at h
      simp [extractTitleLoop, List.find?_cons_of_neg, h, ih]

/-- Modelled from the spec's words (for claim C9 only): the title of the first
*top-level* (level-1) heading line of the content. -/
def firstTopLevelHeading (content : String) : Option String :=
  ((goSplitLines content).filterMap fun l =>
    let t := goTrim l
    if goHasPrefix t "#" ∧ headingLevel t = 1 then
      some (goTrim (String.mk (t.data.drop 1)))
    else none).head?

/-! ### Claim C9 -/

/-- C9 counterexample: on `"## Sub\n# Top"` the first *top-level* heading is
`"Top"`, but `ExtractTitle` returns `"Sub"`, taken from the earlier level-2
heading line; so the title is not the first top-level heading. -/
theorem extractTitle_any_level_cex :
    ExtractTitle "## Sub\n# Top" "fb" = "Sub" ∧
    firstTopLevelHeading "## Sub\n# Top" = some "Top" ∧
    ("Sub" : String) ≠ "Top" := by decide

/-- C9 (amended): `ExtractTitle` returns the fallback when no line is a
heading of any level, and otherwise the first heading line of *any* level,
with all leading `#` stripped and the result trimmed; the two quoted examples
hold as stated. -/
theorem extractTitle_amended :
    (∀ content fallback,
      ((goSplitLines content).find? fun l => goHasPrefix (goTrim l) "#") = none →
        ExtractTitle content fallback = fallback) ∧
    (∀ content fallback l,
      ((goSplitLines content).find? fun l => goHasPrefix (goTrim l) "#") = some l →
        ExtractTitle content fallback =
          goTrim (String.mk ((goTrim l).data.dropWhile (· = '#')))) ∧
    ExtractTitle "Some intro\n# Heading One\nMore text" "fallback" = "Heading One" ∧
    ExtractTitle "no headings" "fallback" = "fallback" := by
  refine ⟨fun content fallback h => ?_, fun content fallback l h => ?_, by decide, by decide⟩
  · simp [ExtractTitle, extractTitleLoop_eq, h]
  · simp [ExtractTitle, extractTitleLoop_eq, h]

/-- C9 witness: the amended theorem applied at concrete inputs. -/
theorem extractTitle_amended_witness :
    ExtractTitle "abc" "fb" = "fb" ∧ ExtractTitle "x\n## T x" "fb" = "T x" :=
  ⟨extractTitle_amended.1 "abc" "fb" (by decide),
   extractTitle_amended.2.1 "x\n## T x" "fb" "## T x" (by decide)⟩

/-- Every filter produced by `normalizeFilters` is non-empty. -/
theorem normalizeFilters_mem_ne (filters : List String) :
    ∀ f ∈ normalizeFilters filters, f ≠ "" := by
  suffices h : ∀ (fs : List String) (acc : List String), (∀ f ∈ acc, f ≠ "") →
      ∀ f ∈ fs.foldl
        (fun acc f => let t := goToLower (goTrim f); if t = "" then acc else acc ++ [t]) acc,
        f ≠ "" by
    exact h filters [] (by simp)
  intro fs
  induction fs with
  | nil => intro acc hacc; simpa using hacc
  | cons g rest ih =>
    intro acc hacc
    simp only [List.foldl_cons]
    by_cases hg : goToLower (goTrim g) = ""
    · simpa [hg] using ih acc hacc
    · refine ih _ ?_
      simp only [hg, if_neg hg]
      intro f hf
      rcases List.mem_append.mp hf with h | h
      · exact hacc f h
      · simpa [List.mem_singleton.mp h] using hg

/-- The accumulate-and-append loop of `filterChunksBySections` is `filter`. -/
theorem filterChunksLoop_eq (n : List String) :
    ∀ (cs acc : List ChunkResult),
      filterChunksLoop n cs acc = acc ++ cs.filter (fun c => sectionFilterMatch n c) := by
  intro cs
  induction cs with
  | nil => intro acc; simp [filterChunksLoop]
  | cons c rest ih =>
    intro acc
    by_cases h : sectionFilterMatch n c
    · simp [filterChunksLoop, h, ih, List.filter_cons]
    · simp only [Bool.not_eq_true] at h
      simp [filterChunksLoop, h, ih, List.filter_cons]

/-- The matching predicate of the amended claim C4: the (normalized) filter is
a substring of the chunk's lowercased, `"introduction"`-defaulted section
title, or equals the decimal string rendering of the chunk's section order. -/
def sectionMatchesAmended (c : ChunkResult) (f : String) : Prop :=
  f.data <:+:
    (let t := goToLower (goTrim c.SectionTitle)
     if t = "" then "introduction" else t).data ∨
  f = goIntToString c.SectionOrder

instance (c : ChunkResult) (f : String) : Decidable (sectionMatchesAmended c f) := by
  unfold sectionMatchesAmended; infer_instance

/-- The boolean matching loop agrees with the amended predicate on non-empty
filters. -/
theorem sectionFilterMatch_iff (n : List String) (c : ChunkResult)
    (hne : ∀ f ∈ n, f ≠ "") :
    sectionFilterMatch n c = true ↔ ∃ f ∈ n, sectionMatchesAmended c f := by
  unfold sectionFilterMatch sectionMatchesAmended stringsContains
  simp only [List.any_eq_true, Bool.or_eq_true, Bool.and_eq_true, decide_eq_true_eq,
    ne_eq, decide_not, Bool.not_eq_true', decide_eq_false_iff_not]
  constructor
  · rintro ⟨f, hf, h | ⟨-, h⟩⟩
    · exact ⟨f, hf, Or.inl h⟩
    · exact ⟨f, hf, Or.inr h.symm⟩
  · rintro ⟨f, hf, h | h⟩
    · exact ⟨f, hf, Or.inl h⟩
    · exact ⟨f, hf, Or.inr ⟨hne f hf, h.symm⟩⟩

/-- Modelled from the spec's words (for claim C4 only): parse an optionally
signed decimal integer, as Go's `strconv.Atoi` would ("numerically equal"). -/
def digitsValAux : List Char → Nat → Option Nat
  | [], acc => some acc
  | c :: rest, acc =>
    if c.isDigit then digitsValAux rest (acc * 10 + (c.toNat - 48)) else none

/-- Modelled from the spec's words (for claim C4 only): the numeric value of a
filter string, when it has one. -/
def parseIntSpec? (s : String) : Option Int :=
  match s.data with
  | [] => none
  | '-' :: rest =>
    if rest.isEmpty then none else (digitsValAux rest 0).map (fun n => -(n : Int))
  | '+' :: rest =>
    if rest.isEmpty then none else (digitsValAux rest 0).map (fun n => (n : Int))
  | l => (digitsValAux l 0).map (fun n => (n : Int))

/-! ### Claim C4 -/

/-- C4 counterexample: the filter `"01"` is numerically equal to the chunk's
section order 1, and is no substring of the section title `"alpha"`, yet
`filterChunksBySections` drops the chunk: the code compares the filter with
the *decimal string* `"1"` of the order, not numerically. -/
theorem filterChunksBySections_numeric_cex :
    filterChunksBySections [⟨"c", "d", "t", "p", "x", 0, "alpha", 1, 1⟩] ["01"] = [] ∧
    parseIntSpec? "01" = some (1 : Int) ∧
    stringsContains "alpha" "01" = false ∧
    normalizeFilters ["01"] = ["01"] := by decide

/-- C4 (amended): with an empty normalized filter set every chunk passes
unchanged; otherwise `filterChunksBySections` keeps exactly the chunks for
which some normalized (lowercased, trimmed, non-blank) filter is a substring
of the chunk's lowercased section title (taken as `"introduction"` when
blank) or *equals the decimal string rendering* of the chunk's section
order. -/
theorem filterChunksBySections_amended (chunks : List ChunkResult) (filters : List String) :
    (normalizeFilters filters = [] → filterChunksBySections chunks filters = chunks) ∧
    (normalizeFilters filters ≠ [] →
      filterChunksBySections chunks filters =
        chunks.filter fun c => decide (∃ f ∈ normalizeFilters filters, sectionMatchesAmended c f)) := by
  constructor
  · intro h
    simp [filterChunksBySections, h]
  · intro h
    have hne := normalizeFilters_mem_ne filters
    have hempty : (normalizeFilters filters).isEmpty = false := by
      simpa [List.isEmpty_iff] using h
    simp only [filterChunksBySections, hempty, Bool.false_eq_true, if_false,
      filterChunksLoop_eq, List.nil_append]
    refine List.filter_congr fun c _ => ?_
    have := sectionFilterMatch_iff (normalizeFilters filters) c hne
    by_cases hm : sectionFilterMatch (normalizeFilters filters) c = true
    · rw [hm, eq_comm, decide_eq_true_eq]
      exact this.mp hm
    · simp only [Bool.not_eq_true] at hm
      rw [hm, eq_comm, decide_eq_false_iff_not]
      intro hx
      exact absurd (this.mpr hx) (by simp [hm])

/-- C4 witness: the amended theorem applied at a concrete filter set. -/
theorem filterChunksBySections_amended_witness :
    filterChunksBySections
        [⟨"c1", "d", "t", "p", "x", 0, "Intro", 1, 1⟩,
         ⟨"c2", "d", "t", "p", "x", 0, "Other", 1, 2⟩] ["intro"] =
      List.filter
        (fun c => decide (∃ f ∈ normalizeFilters ["intro"], sectionMatchesAmended c f))
        [⟨"c1", "d", "t", "p", "x", 0, "Intro", 1, 1⟩,
         ⟨"c2", "d", "t", "p", "x", 0, "Other", 1, 2⟩] :=
  (filterChunksBySections_amended _ ["intro"]).2 (by decide)

/-- Any property preserved by one `ChunkMarkdown` loop iteration is preserved
by the whole loop. -/
theorem mdFold_inv {P : MdState → Prop}
    (hstep : ∀ st raw, P st → P (mdStep st raw)) :
    ∀ (lines : List String) (st : MdState), P st → P (lines.foldl mdStep st) := by
  intro lines
  induction lines with
  | nil => intro st h; simpa using h
  | cons l rest ih =>
    intro st h
    simpa using ih (mdStep st l) (hstep st l h)

/-- One `ChunkMarkdown` iteration keeps `topicsSeen` equal to the topic names
and the topic names duplicate-free. -/
theorem mdStep_topics_inv (st : MdState) (raw : String)
    (h : st.topicsSeen = st.topics.map (·.Name) ∧ (st.topics.map (·.Name)).Nodup) :
    (mdStep st raw).topicsSeen = (mdStep st raw).topics.map (·.Name) ∧
      ((mdStep st raw).topics.map (·.Name)).Nodup := by
  obtain ⟨hseen, hnodup⟩ := h
  unfold mdStep
  dsimp only
  split_ifs with h1 h2 h3 h4 h5
  · exact ⟨hseen, hnodup⟩
  · exact ⟨hseen, hnodup⟩
  · exact ⟨hseen, hnodup⟩
  · refine ⟨by simp [hseen], ?_⟩
    have hmem : goTrim (String.mk ((goTrim raw).data.drop (headingLevel (goTrim raw)))) ∉
        st.topics.map (·.Name) := by
      rw [← hseen]
      exact fun hx => h5.2 (List.elem_iff.mpr hx)
    simp only [List.map_append, List.map_cons, List.map_nil]
    rw [List.nodup_append]
    refine ⟨hnodup, List.nodup_singleton _, ?_⟩
    intro a ha hb
    simp only [List.mem_singleton] at hb
    exact hmem (hb ▸ ha)
  · exact ⟨hseen, hnodup⟩
  · exact ⟨hseen, hnodup⟩

/-- The CSV topic loop keeps every non-empty trimmed header, in order. -/
theorem csvTopics_eq (headers : List String) :
    csvTopics headers =
      ((headers.map goTrim).filter fun t => t ≠ "").map fun t => (⟨t⟩ : TopicMeta) := by
  suffices h : ∀ (hs : List String) (acc : List TopicMeta),
      hs.foldl (fun acc h => let t := goTrim h; if t = "" then acc else acc ++ [⟨t⟩]) acc =
        acc ++ ((hs.map goTrim).filter fun t => t ≠ "").map fun t => (⟨t⟩ : TopicMeta) by
    simpa using h headers []
  intro hs
  induction hs with
  | nil => intro acc; simp
  | cons g rest ih =>
    intro acc
    by_cases hg : goTrim g = ""
    · simp [hg, ih]
    · simp [hg, ih]

/-! ### Claim C7 -/

/-- C7 counterexample: a CSV header row with a repeated non-empty header
yields a topic list with duplicate names — the CSV parser does not
deduplicate. -/
theorem csvTopics_duplicate_cex :
    csvTopics ["a", "a"] = [⟨"a"⟩, ⟨"a"⟩] ∧
    ¬ ((csvTopics ["a", "a"]).map (·.Name)).Nodup := by decide

/-- C7 (amended): the topics returned by `ChunkMarkdown` are deduplicated in
insertion order (no duplicate names), but the CSV parser's header-derived
topics are simply every non-empty trimmed header in order, and may contain
duplicates. -/
theorem topics_unique_amended :
    (∀ content target overlap,
      (((ChunkMarkdown content target overlap).2.2).map (·.Name)).Nodup) ∧
    (∀ headers, csvTopics headers =
      ((headers.map goTrim).filter fun t => t ≠ "").map fun t => (⟨t⟩ : TopicMeta)) := by
  refine ⟨fun content target overlap => ?_, csvTopics_eq⟩
  have h := mdFold_inv mdStep_topics_inv (mdLines content) mdInit (by simp [mdInit])
  simpa [ChunkMarkdown, mdScan] using h.2

/-- The accumulated unit length of a chunk buffer (the quantity the Go code
tracks in `currentLen`). -/
def sumLen (g : List paragraphWithSection) : Nat :=
  (g.map fun p => goLen p.Text).sum

theorem sumLen_nil : sumLen [] = 0 := rfl

theorem sumLen_singleton (p : paragraphWithSection) : sumLen [p] = goLen p.Text := by
  simp [sumLen]

theorem sumLen_pair (a b : paragraphWithSection) :
    sumLen [a, b] = goLen a.Text + goLen b.Text := by
  simp [sumLen]

theorem sumLen_append (xs ys : List paragraphWithSection) :
    sumLen (xs ++ ys) = sumLen xs + sumLen ys := by
  simp [sumLen]

/-- `goLen` is additive over string append. -/
theorem goLen_append (s t : String) : goLen (s ++ t) = goLen s + goLen t := by
  rcases s with ⟨a⟩
  rcases t with ⟨b⟩
  show (a ++ b).length = a.length + b.length
  exact List.length_append a b

/-- Length of a blank-line join: unit lengths plus two per joiner. -/
theorem buildChunkFragment_text_length (g : List paragraphWithSection) :
    goLen (buildChunkFragment g).Text = sumLen g + 2 * (g.length - 1) := by
  suffices h : ∀ ts : List String,
      goLen (stringsJoin "\n\n" ts) = (ts.map goLen).sum + 2 * (ts.length - 1) by
    calc goLen (buildChunkFragment g).Text
        = goLen (stringsJoin "\n\n" (g.map (·.Text))) := rfl
      _ = ((g.map (·.Text)).map goLen).sum + 2 * ((g.map (·.Text)).length - 1) := h _
      _ = sumLen g + 2 * (g.length - 1) := by rw [List.map_map, List.length_map]; rfl
  intro ts
  induction ts with
  | nil => simp [stringsJoin, goLen]
  | cons t rest ih =>
    cases rest with
    | nil => simp [stringsJoin]
    | cons u rest' =>
      simp only [stringsJoin, goLen_append, ih, List.map_cons, List.sum_cons, List.length_cons]
      have h2 : goLen "\n\n" = 2 := by decide
      rw [h2]
      omega

/-- Size invariant of the chunk buffer loop: every flushed buffer either has
unit-length sum within the target, or has at most two units (one when
`overlap ≤ 0`): a lone oversized unit, or a carried overlap unit plus the
unit appended unconditionally right after the flush. -/
theorem chunkGroupsLoop_bound (target overlap : Int) :
    ∀ (ps cur : List paragraphWithSection) (curLen : Int)
      (acc : List (List paragraphWithSection)),
      curLen = (sumLen cur : Int) →
      (∀ g ∈ acc, (sumLen g : Int) ≤ target ∨ g.length ≤ if 0 < overlap then 2 else 1) →
      ((sumLen cur : Int) ≤ target ∨ cur.length ≤ if 0 < overlap then 2 else 1) →
      ∀ g ∈ chunkGroupsLoop target overlap ps cur curLen acc,
        (sumLen g : Int) ≤ target ∨ g.length ≤ if 0 < overlap then 2 else 1 := by
  intro ps
  induction ps with
  | nil =>
    intro cur curLen acc hlen hacc hcur g hg
    simp only [chunkGroupsLoop] at hg
    by_cases hc : cur.isEmpty = true
    · rw [if_pos hc] at hg
      exact hacc g hg
    · rw [if_neg hc] at hg
      rcases List.mem_append.mp hg with h | h
      · exact hacc g h
      · rwa [List.mem_singleton.mp h]
  | cons p rest ih =>
    intro cur curLen acc hlen hacc hcur g hg
    simp only [chunkGroupsLoop] at hg
    by_cases hflush : curLen + (goLen p.Text : Int) > target ∧ ¬ cur.isEmpty = true
    · rw [if_pos hflush] at hg
      have hacc' : ∀ g' ∈ acc ++ [cur],
          (sumLen g' : Int) ≤ target ∨ g'.length ≤ if 0 < overlap then 2 else 1 := by
        intro g' hg'
        rcases List.mem_append.mp hg' with h | h
        · exact hacc g' h
        · rwa [List.mem_singleton.mp h]
      by_cases hov : overlap > 0
      · rw [if_pos hov] at hg
        refine ih _ _ _ (by rw [sumLen_pair]; push_cast; ring) hacc' ?_ g hg
        right
        simp only [List.length_cons, List.length_nil]
        rw [if_pos hov]
      · rw [if_neg hov] at hg
        refine ih _ _ _ (by rw [sumLen_singleton]) hacc' ?_ g hg
        right
        simp only [List.length_singleton]
        split_ifs <;> omega
    · rw [if_neg hflush] at hg
      have hs : (sumLen (cur ++ [p]) : Int) = curLen + goLen p.Text := by
        rw [sumLen_append, sumLen_singleton, hlen]; push_cast; ring
      refine ih _ _ _ hs.symm hacc ?_ g hg
      rcases not_and_or.mp hflush with h | h
      · left
        rw [hs]
        exact not_lt.mp h
      · right
        have hc : cur = [] := by simpa [List.isEmpty_iff] using not_not.mp h
        subst hc
        simp only [List.nil_append, List.length_singleton]
        split_ifs <;> omega

/-! ### Claim C1 -/

/-- C1 counterexample: with `target = 10` and `overlap = 0`, two units of
length 5 each land in one fragment whose text has length 12 > 10 (the `"\n\n"`
joiner is not counted by the length bookkeeping), even though no single unit
exceeds the target; and with `overlap = 1`, three units of length 6 produce
buffers whose unit-length sums are 12 > 10 with two units each (the overlap
carry plus the next unit is appended without a size check). -/
theorem chunkParagraphs_target_exceeded_cex :
    (chunkParagraphs [⟨"aaaaa", ⟨"S", 1, 0⟩⟩, ⟨"bbbbb", ⟨"S", 1, 0⟩⟩] 10 0).map
        (fun f => goLen f.Text) = [12] ∧
    ([(⟨"aaaaa", ⟨"S", 1, 0⟩⟩ : paragraphWithSection), ⟨"bbbbb", ⟨"S", 1, 0⟩⟩].map
        fun p => goLen p.Text) = [5, 5] ∧
    ((chunkGroups [⟨"aaaaaa", ⟨"S", 1, 0⟩⟩, ⟨"bbbbbb", ⟨"S", 1, 0⟩⟩,
        ⟨"cccccc", ⟨"S", 1, 0⟩⟩] 10 1).map fun g => (sumLen g, g.length)) =
      [(6, 1), (12, 2), (12, 2)] := by decide

/-- C1 (amended): for `target > 0`, every buffer flushed by the chunking
routine has unit-length sum at most `target`, except buffers of at most two
units (a lone oversized atomic unit — never split mid-unit — or, when
`overlap > 0`, a carried overlap unit plus the unit appended unconditionally
after the flush); a fragment's text length is the unit-length sum plus two
per blank-line joiner. -/
theorem chunkParagraphs_fragment_size (ps : List paragraphWithSection)
    (target overlap : Int) (ht : 0 < target) :
    chunkParagraphs ps target overlap = (chunkGroups ps target overlap).map buildChunkFragment ∧
    ∀ g ∈ chunkGroups ps target overlap,
      ((sumLen g : Int) ≤ target ∨ g.length ≤ (if 0 < overlap then 2 else 1)) ∧
      goLen (buildChunkFragment g).Text = sumLen g + 2 * (g.length - 1) := by
  refine ⟨rfl, fun g hg => ⟨?_, buildChunkFragment_text_length g⟩⟩
  have hto : ¬ target ≤ 0 := not_le.mpr ht
  have hgg : chunkGroups ps target overlap =
      chunkGroupsLoop target (if overlap < 0 then 0 else overlap) ps [] 0 [] := by
    simp [chunkGroups, hto]
  rcases lt_or_le overlap 0 with hov | hov
  · rw [hgg, if_pos hov] at hg
    have hres := chunkGroupsLoop_bound target 0 ps [] 0 []
      (by rw [sumLen_nil]; rfl) (by simp)
      (Or.inl (by rw [sumLen_nil]; exact_mod_cast le_of_lt ht)) g hg
    rw [if_neg (lt_irrefl (0 : Int))] at hres
    rw [if_neg (show ¬ (0 : Int) < overlap by omega)]
    exact hres
  · rw [hgg, if_neg (not_lt.mpr hov)] at hg
    exact chunkGroupsLoop_bound target overlap ps [] 0 []
      (by rw [sumLen_nil]; rfl) (by simp)
      (Or.inl (by rw [sumLen_nil]; exact_mod_cast le_of_lt ht)) g hg

/-- C1 witness: the amended theorem applied at the counterexample input. -/
theorem chunkParagraphs_fragment_size_witness :
    ((sumLen [(⟨"aaaaa", ⟨"S", 1, 0⟩⟩ : paragraphWithSection), ⟨"bbbbb", ⟨"S", 1, 0⟩⟩] : Int) ≤ 10 ∨
      [(⟨"aaaaa", ⟨"S", 1, 0⟩⟩ : paragraphWithSection), ⟨"bbbbb", ⟨"S", 1, 0⟩⟩].length ≤
        (if (0 : Int) < 0 then 2 else 1)) ∧
    goLen (buildChunkFragment
        [(⟨"aaaaa", ⟨"S", 1, 0⟩⟩ : paragraphWithSection), ⟨"bbbbb", ⟨"S", 1, 0⟩⟩]).Text =
      sumLen [(⟨"aaaaa", ⟨"S", 1, 0⟩⟩ : paragraphWithSection), ⟨"bbbbb", ⟨"S", 1, 0⟩⟩] +
        2 * ([(⟨"aaaaa", ⟨"S", 1, 0⟩⟩ : paragraphWithSection), ⟨"bbbbb", ⟨"S", 1, 0⟩⟩].length - 1) :=
  (chunkParagraphs_fragment_size
      [⟨"aaaaa", ⟨"S", 1, 0⟩⟩, ⟨"bbbbb", ⟨"S", 1, 0⟩⟩] 10 0 (by decide)).2
    [⟨"aaaaa", ⟨"S", 1, 0⟩⟩, ⟨"bbbbb", ⟨"S", 1, 0⟩⟩] (by decide)

/-- String append at the character level. -/
theorem goData_append (s t : String) : (s ++ t).data = s.data ++ t.data := by
  rcases s with ⟨a⟩
  rcases t with ⟨b⟩
  rfl

/-- The head of a blank-line join is a prefix of the join. -/
theorem stringsJoin_head_prefix :
    ∀ (ts : List String) (t : String), ts.head? = some t →
      t.data <+: (stringsJoin "\n\n" ts).data := by
  intro ts t h
  cases ts with
  | nil => simp at h
  | cons t0 rest =>
    rw [List.head?_cons, Option.some_inj] at h
    rw [← h]
    cases rest with
    | nil => exact List.prefix_refl _
    | cons u rest' =>
      rw [show stringsJoin "\n\n" (t0 :: u :: rest') =
          t0 ++ "\n\n" ++ stringsJoin "\n\n" (u :: rest') from rfl,
        goData_append, goData_append, List.append_assoc]
      exact ⟨_, rfl⟩

/-- The last element of a blank-line join is a suffix of the join. -/
theorem stringsJoin_last_suffix :
    ∀ (ts : List String) (t : String), ts.getLast? = some t →
      t.data <:+ (stringsJoin "\n\n" ts).data := by
  intro ts
  induction ts with
  | nil => intro t h; simp at h
  | cons t0 rest ih =>
    intro t h
    cases rest with
    | nil =>
      rw [List.getLast?_singleton, Option.some_inj] at h
      subst h
      exact List.suffix_refl _
    | cons u rest' =>
      rw [List.getLast?_cons_cons] at h
      have hsuf := ih t h
      refine hsuf.trans ?_
      show (stringsJoin "\n\n" (u :: rest')).data <:+
        (t0 ++ "\n\n" ++ stringsJoin "\n\n" (u :: rest')).data
      rw [goData_append]
      exact ⟨_, rfl⟩

/-- A fragment's first unit text is a prefix of the fragment text. -/
theorem buildChunkFragment_head_prefix (g : List paragraphWithSection)
    (u : paragraphWithSection) (h : g.head? = some u) :
    u.Text.data <+: (buildChunkFragment g).Text.data := by
  refine stringsJoin_head_prefix (g.map (·.Text)) u.Text ?_
  rw [List.head?_map, h, Option.map_some']

/-- A fragment's last unit text is a suffix of the fragment text. -/
theorem buildChunkFragment_last_suffix (g : List paragraphWithSection)
    (u : paragraphWithSection) (h : g.getLast? = some u) :
    u.Text.data <:+ (buildChunkFragment g).Text.data := by
  refine stringsJoin_last_suffix (g.map (·.Text)) u.Text ?_
  rw [List.getLast?_map, h, Option.map_some']

/-- Overlap invariant of the chunk buffer loop: when `overlap > 0`, every
buffer starts with the last unit of the previously flushed buffer. -/
theorem chunkGroupsLoop_chain (target overlap : Int) (hov : 0 < overlap) :
    ∀ (ps cur : List paragraphWithSection) (curLen : Int)
      (acc : List (List paragraphWithSection)),
      List.Chain' (fun g₁ g₂ => ∃ u, g₁.getLast? = some u ∧ g₂.head? = some u) acc →
      (cur = [] → acc = []) →
      (∀ gl, acc.getLast? = some gl → ∃ u, gl.getLast? = some u ∧ cur.head? = some u) →
      List.Chain' (fun g₁ g₂ => ∃ u, g₁.getLast? = some u ∧ g₂.head? = some u)
        (chunkGroupsLoop target overlap ps cur curLen acc) := by
  intro ps
  induction ps with
  | nil =>
    intro cur curLen acc hacc hempty hlink
    simp only [chunkGroupsLoop]
    by_cases hc : cur.isEmpty = true
    · rwa [if_pos hc]
    · rw [if_neg hc]
      refine List.chain'_append.mpr ⟨hacc, List.chain'_singleton cur, ?_⟩
      intro x hx y hy
      rw [List.head?_cons, Option.mem_def, Option.some_inj] at hy
      subst hy
      exact hlink x hx
  | cons p rest ih =>
    intro cur curLen acc hacc hempty hlink
    simp only [chunkGroupsLoop]
    by_cases hflush : curLen + (goLen p.Text : Int) > target ∧ ¬ cur.isEmpty = true
    · rw [if_pos hflush, if_pos (show overlap > 0 from hov)]
      have hne : cur ≠ [] := by
        intro h
        exact hflush.2 (by simp [h])
      obtain ⟨x, hx⟩ : ∃ x, cur.getLast? = some x := by
        cases hcur : cur.getLast? with
        | none => exact absurd (List.getLast?_eq_none_iff.mp hcur) hne
        | some x => exact ⟨x, rfl⟩
      have hlast : cur.getLastD default = x := by
        rw [List.getLastD_eq_getLast?, hx, Option.getD_some]
      refine ih _ _ _ ?_ (by simp) ?_
      · refine List.chain'_append.mpr ⟨hacc, List.chain'_singleton cur, ?_⟩
        intro a ha y hy
        rw [List.head?_cons, Option.mem_def, Option.some_inj] at hy
        subst hy
        exact hlink a ha
      · intro gl hgl
        rw [List.getLast?_concat, Option.some_inj] at hgl
        subst hgl
        exact ⟨x, hx, by rw [hlast, List.head?_cons]⟩
    · rw [if_neg hflush]
      refine ih _ _ _ hacc (by simp) ?_
      intro gl hgl
      by_cases hc : cur = []
      · rw [hempty hc] at hgl
        simp at hgl
      · obtain ⟨u, hu1, hu2⟩ := hlink gl hgl
        refine ⟨u, hu1, ?_⟩
        cases cur with
        | nil => exact absurd rfl hc
        | cons a l =>
          rw [List.head?_cons] at hu2
          rw [List.cons_append, List.head?_cons]
          exact hu2

/-! ### Claim C2 -/

/-- C2: when `overlap > 0`, consecutive flushed buffers share a unit — the
last unit of the earlier buffer is the first unit of the next — and hence
that unit's text is a suffix of the earlier fragment's text and a prefix of
the next fragment's text. -/
theorem chunkParagraphs_overlap_chain (ps : List paragraphWithSection)
    (target overlap : Int) (hov : 0 < overlap) :
    chunkParagraphs ps target overlap = (chunkGroups ps target overlap).map buildChunkFragment ∧
    List.Chain'
      (fun g₁ g₂ => ∃ u : paragraphWithSection,
        g₁.getLast? = some u ∧ g₂.head? = some u ∧
        u.Text.data <:+ (buildChunkFragment g₁).Text.data ∧
        u.Text.data <+: (buildChunkFragment g₂).Text.data)
      (chunkGroups ps target overlap) := by
  refine ⟨rfl, ?_⟩
  have hovn : ¬ overlap < 0 := by omega
  have hgg : chunkGroups ps target overlap =
      chunkGroupsLoop (if target ≤ 0 then defaultChunkSize else target) overlap ps [] 0 [] := by
    simp [chunkGroups, hovn]
  rw [hgg]
  have hchain := chunkGroupsLoop_chain (if target ≤ 0 then defaultChunkSize else target)
    overlap hov ps [] 0 [] List.chain'_nil (fun _ => rfl) (by simp)
  refine hchain.imp ?_
  rintro g₁ g₂ ⟨u, h1, h2⟩
  exact ⟨u, h1, h2, buildChunkFragment_last_suffix g₁ u h1,
    buildChunkFragment_head_prefix g₂ u h2⟩

/-- C2 witness: the theorem applied at a concrete overlapping run. -/
theorem chunkParagraphs_overlap_chain_witness :
    List.Chain'
      (fun g₁ g₂ => ∃ u : paragraphWithSection,
        g₁.getLast? = some u ∧ g₂.head? = some u ∧
        u.Text.data <:+ (buildChunkFragment g₁).Text.data ∧
        u.Text.data <+: (buildChunkFragment g₂).Text.data)
      (chunkGroups [⟨"aaaaaa", ⟨"S", 1, 0⟩⟩, ⟨"bbbbbb", ⟨"S", 1, 0⟩⟩,
        ⟨"cccccc", ⟨"S", 1, 0⟩⟩] 10 1) :=
  (chunkParagraphs_overlap_chain
    [⟨"aaaaaa", ⟨"S", 1, 0⟩⟩, ⟨"bbbbbb", ⟨"S", 1, 0⟩⟩, ⟨"cccccc", ⟨"S", 1, 0⟩⟩]
    10 1 (by decide)).2

/-- `mergeSources` of no chunks is empty. -/
theorem mergeSources_nil (insights : List (String × DocumentInsight)) :
    mergeSources [] insights = [] := rfl

/-! ### Claim C5 -/

/-- C5: when the question is non-blank, embedder/vector store/LLM are
configured, the embedder returns at least one vector, the vector store
returns zero chunks, and the LLM answers `a`, then `Chat` succeeds with the
trimmed answer and an empty source list — zero retrieval hits degrade
gracefully instead of failing. -/
theorem chat_zero_hits_degrades (s : ChatServices) (question : String) (cfg : Config)
    (embed : List String → Except String (List (List ℚ)))
    (vec : List ℚ → Int → Except String (List ChunkResult))
    (gen : List Message → Except String String)
    (emb : List ℚ) (embs : List (List ℚ)) (a : String)
    (hq : ¬ goTrim question = "")
    (hemb : s.embedder = some embed)
    (hvec : s.vectors = some vec)
    (hllm : s.llm = some gen)
    (hembed : embed [goTrim question] = .ok (emb :: embs))
    (hvec0 : ∀ e lim, vec e lim = .ok [])
    (hgen : ∀ msgs, gen msgs = .ok a) :
    Chat s question cfg = .ok ⟨goTrim a, []⟩ := by
  cases hgr : s.graph with
  | none =>
    simp only [Chat, chat, hq, if_neg, hemb, hvec, hllm, hembed, hvec0, hgen, hgr]
    simp [mergeSources_nil, Except.map]
  | some g =>
    simp only [Chat, chat, hq, if_neg, hemb, hvec, hllm, hembed, hvec0, hgen, hgr]
    simp [mergeSources_nil, Except.map]

/-- C5 witness: the theorem applied to concrete stub services. -/
theorem chat_zero_hits_degrades_witness :
    Chat
      ⟨some fun _ => .ok [[1]], some fun _ _ => .ok [], none, some fun _ => .ok " X "⟩
      "q" ⟨0, [], []⟩ = .ok ⟨goTrim " X ", []⟩ :=
  chat_zero_hits_degrades _ "q" ⟨0, [], []⟩ _ _ _ [1] [] " X "
    (by decide) rfl rfl rfl rfl (fun _ _ => rfl) (fun _ => rfl)

/-! ### Claim C8 -/

/-- C8: whenever a chat turn succeeds, the returned history is the input
history followed by exactly one user message and one assistant message
carrying the final answer; the input history itself is a pure value the
function never mutates. -/
theorem chat_appends_history (s : ChatServices) (question : String) (cfg : Config)
    (history : List Message) (resp : Response) (hist' : List Message)
    (h : chat s question cfg history = .ok (resp, hist')) :
    ∃ u a, hist' = history ++ [u, a] ∧ u.Role = RoleUser ∧ a.Role = RoleAssistant ∧
      a.Content = resp.Answer := by
  unfold chat at h
  simp only [] at h
  repeat' split at h
  all_goals try exact Except.noConfusion h
  all_goals
    injection h with hpair
    rw [Prod.mk.injEq] at hpair
    obtain ⟨hresp, hhist⟩ := hpair
    subst hresp
    subst hhist
    exact ⟨_, _, rfl, rfl, rfl, rfl⟩

/-- C8 witness: the theorem applied to a concrete successful turn with a
non-empty prior history. -/
theorem chat_appends_history_witness :
    ∃ u a,
      ([(⟨"user", "hi"⟩ : Message), ⟨"assistant", "yo"⟩] ++
        [⟨RoleUser, formatUserPrompt "q" ""⟩, ⟨RoleAssistant, "X"⟩] : List Message) =
        [(⟨"user", "hi"⟩ : Message), ⟨"assistant", "yo"⟩] ++ [u, a] ∧
      u.Role = RoleUser ∧ a.Role = RoleAssistant ∧
      a.Content = (⟨"X", []⟩ : Response).Answer :=
  chat_appends_history
    ⟨some fun _ => .ok [[1]], some fun _ _ => .ok [], none, some fun _ => .ok "X"⟩
    "q" ⟨0, [], []⟩ [⟨"user", "hi"⟩, ⟨"assistant", "yo"⟩] ⟨"X", []⟩
    ([(⟨"user", "hi"⟩ : Message), ⟨"assistant", "yo"⟩] ++
      [⟨RoleUser, formatUserPrompt "q" ""⟩, ⟨RoleAssistant, "X"⟩])
    (by rfl)

/-- `applyChunk` never changes the document id of a group. -/
theorem applyChunk_DocumentID (ins : List (String × DocumentInsight)) (c : ChunkResult)
    (s : Source) : (applyChunk ins c s).DocumentID = s.DocumentID := by
  unfold applyChunk
  dsimp only
  cases ins.lookup c.DocumentID <;> split_ifs <;> rfl

/-- `applyChunk` never changes the score of a group. -/
theorem applyChunk_Score (ins : List (String × DocumentInsight)) (c : ChunkResult)
    (s : Source) : (applyChunk ins c s).Score = s.Score := by
  unfold applyChunk
  dsimp only
  cases ins.lookup c.DocumentID <;> split_ifs <;> rfl

/-- Invariant of the grouping fold of `mergeSources` over the processed
chunks: group ids are duplicate-free, are exactly the processed document ids,
and each group's score is the attained maximum of its document's chunk
scores. -/
def mergeInv (processed : List ChunkResult) (groups : List Source) : Prop :=
  (groups.map (·.DocumentID)).Nodup ∧
  (∀ d, d ∈ groups.map (·.DocumentID) ↔ d ∈ processed.map (·.DocumentID)) ∧
  (∀ s ∈ groups,
    (∀ c ∈ processed, c.DocumentID = s.DocumentID → c.Score ≤ s.Score) ∧
    (∃ c ∈ processed, c.DocumentID = s.DocumentID ∧ c.Score = s.Score))

/-- One `mergeSources` grouping step preserves the invariant. -/
theorem mergeStep_inv (ins : List (String × DocumentInsight)) (processed : List ChunkResult)
    (groups : List Source) (c : ChunkResult) (h : mergeInv processed groups) :
    mergeInv (processed ++ [c]) (mergeStep ins groups c) := by
  obtain ⟨hnodup, hmemiff, hscores⟩ := h
  unfold mergeStep
  by_cases hany : groups.any (·.DocumentID = c.DocumentID) = true
  · rw [if_pos hany]
    have hid : ∀ s : Source,
        (if s.DocumentID = c.DocumentID then
            applyChunk ins c { s with Score := if c.Score > s.Score then c.Score else s.Score }
          else s).DocumentID = s.DocumentID := by
      intro s
      by_cases hs : s.DocumentID = c.DocumentID
      · rw [if_pos hs, applyChunk_DocumentID]
      · rw [if_neg hs]
    have hmap : (groups.map fun s =>
        if s.DocumentID = c.DocumentID then
          applyChunk ins c { s with Score := if c.Score > s.Score then c.Score else s.Score }
        else s).map (·.DocumentID) = groups.map (·.DocumentID) := by
      rw [List.map_map]
      exact List.map_congr_left fun s _ => hid s
    refine ⟨by rw [hmap]; exact hnodup, ?_, ?_⟩
    · intro d
      rw [hmap]
      constructor
      · intro hd
        rw [List.map_append]
        exact List.mem_append_left _ ((hmemiff d).mp hd)
      · intro hd
        rw [List.map_append] at hd
        rcases List.mem_append.mp hd with h1 | h1
        · exact (hmemiff d).mpr h1
        · simp only [List.map_cons, List.map_nil, List.mem_singleton] at h1
          subst h1
          obtain ⟨s, hs, hseq⟩ := List.any_eq_true.mp hany
          exact List.mem_map.mpr ⟨s, hs, by simpa using hseq⟩
    · intro s' hs'
      obtain ⟨s, hs, hupd⟩ := List.mem_map.mp hs'
      by_cases hdoc : s.DocumentID = c.DocumentID
      · rw [if_pos hdoc] at hupd
        subst hupd
        have hdid : (applyChunk ins c
            { s with Score := if c.Score > s.Score then c.Score else s.Score }).DocumentID =
            s.DocumentID := by rw [applyChunk_DocumentID]
        have hsc : (applyChunk ins c
            { s with Score := if c.Score > s.Score then c.Score else s.Score }).Score =
            if c.Score > s.Score then c.Score else s.Score := by rw [applyChunk_Score]
        obtain ⟨hub, cw, hcw, hcwid, hcwsc⟩ := hscores s hs
        constructor
        · intro c' hc' hdc'
          rw [hdid] at hdc'
          rw [hsc]
          rcases List.mem_append.mp hc' with h1 | h1
          · have hle := hub c' h1 hdc'
            split_ifs with hgt
            · exact le_trans hle (le_of_lt hgt)
            · exact hle
          · rw [List.mem_singleton] at h1
            subst h1
            split_ifs with hgt
            · exact le_refl _
            · exact not_lt.mp hgt
        · rw [hsc, hdid]
          split_ifs with hgt
          · exact ⟨c, List.mem_append_right _ (List.mem_singleton.mpr rfl), hdoc.symm, rfl⟩
          · exact ⟨cw, List.mem_append_left _ hcw, hcwid, hcwsc⟩
      · rw [if_neg hdoc] at hupd
        subst hupd
        obtain ⟨hub, cw, hcw, hcwid, hcwsc⟩ := hscores s hs
        constructor
        · intro c' hc' hdc'
          rcases List.mem_append.mp hc' with h1 | h1
          · exact hub c' h1 hdc'
          · rw [List.mem_singleton] at h1
            subst h1
            exact absurd hdc'.symm hdoc
        · exact ⟨cw, List.mem_append_left _ hcw, hcwid, hcwsc⟩
  · rw [if_neg hany]
    have hfresh_id : (applyChunk ins c
        { DocumentID := c.DocumentID, Title := c.Title, Path := c.Path
          Snippet := "", Score := c.Score, Insight := default }).DocumentID = c.DocumentID := by
      rw [applyChunk_DocumentID]
    have hfresh_sc : (applyChunk ins c
        { DocumentID := c.DocumentID, Title := c.Title, Path := c.Path
          Snippet := "", Score := c.Score, Insight := default }).Score = c.Score := by
      rw [applyChunk_Score]
    have hnotmem : c.DocumentID ∉ groups.map (·.DocumentID) := by
      intro hm
      obtain ⟨s, hs, hsid⟩ := List.mem_map.mp hm
      exact hany (List.any_eq_true.mpr ⟨s, hs, by simp [hsid]⟩)
    refine ⟨?_, ?_, ?_⟩
    · rw [List.map_append, List.nodup_append]
      refine ⟨hnodup, by simp, ?_⟩
      intro a ha hb
      simp only [List.map_cons, List.map_nil, List.mem_singleton, hfresh_id] at hb
      subst hb
      exact hnotmem ha
    · intro d
      constructor
      · intro hd
        rw [List.map_append] at hd
        rcases List.mem_append.mp hd with h1 | h1
        · rw [List.map_append]
          exact List.mem_append_left _ ((hmemiff d).mp h1)
        · simp only [List.map_cons, List.map_nil, List.mem_singleton, hfresh_id] at h1
          subst h1
          rw [List.map_append]
          exact List.mem_append_right _ (by simp)
      · intro hd
        rw [List.map_append] at hd
        rw [List.map_append]
        rcases List.mem_append.mp hd with h1 | h1
        · exact List.mem_append_left _ ((hmemiff d).mpr h1)
        · simp only [List.map_cons, List.map_nil, List.mem_singleton] at h1
          subst h1
          exact List.mem_append_right _ (by simp [hfresh_id])
    · intro s' hs'
      rcases List.mem_append.mp hs' with h1 | h1
      · obtain ⟨hub, cw, hcw, hcwid, hcwsc⟩ := hscores s' h1
        refine ⟨?_, cw, List.mem_append_left _ hcw, hcwid, hcwsc⟩
        intro c' hc' hdc'
        rcases List.mem_append.mp hc' with h2 | h2
        · exact hub c' h2 hdc'
        · rw [List.mem_singleton] at h2
          subst h2
          exact absurd (List.mem_map.mpr ⟨s', h1, hdc'.symm⟩) hnotmem
      · rw [List.mem_singleton] at h1
        subst h1
        refine ⟨?_, c, List.mem_append_right _ (by simp), hfresh_id.symm, hfresh_sc.symm⟩
        intro c' hc' hdc'
        rw [hfresh_id] at hdc'
        rw [hfresh_sc]
        rcases List.mem_append.mp hc' with h2 | h2
        · exact absurd ((hmemiff _).mpr (List.mem_map.mpr ⟨c', h2, hdc'⟩)) hnotmem
        · rw [List.mem_singleton] at h2
          subst h2
          exact le_refl _

/-- The grouping fold of `mergeSources` establishes the invariant. -/
theorem mergeFold_inv (ins : List (String × DocumentInsight)) :
    ∀ (rest processed : List ChunkResult) (groups : List Source),
      mergeInv processed groups →
      mergeInv (processed ++ rest) (rest.foldl (mergeStep ins) groups) := by
  intro rest
  induction rest with
  | nil => intro processed groups h; simpa using h
  | cons c rest' ih =>
    intro processed groups h
    have hstep := mergeStep_inv ins processed groups c h
    have hrec := ih (processed ++ [c]) (mergeStep ins groups c) hstep
    simpa [List.append_assoc] using hrec

/-- Filtering a duplicate-free association by one key keeps exactly one
element when the key is present. -/
theorem nodup_filter_length (gs : List Source) (d : String)
    (h : (gs.map (·.DocumentID)).Nodup) :
    (gs.filter fun s => s.DocumentID = d).length =
      if d ∈ gs.map (·.DocumentID) then 1 else 0 := by
  induction gs with
  | nil => simp
  | cons s rest ih =>
    simp only [List.map_cons, List.nodup_cons] at h
    obtain ⟨hnot, hrest⟩ := h
    by_cases hd : s.DocumentID = d
    · subst hd
      rw [List.filter_cons_of_pos (by simp)]
      have hnil : (rest.filter fun s' => s'.DocumentID = s.DocumentID) = [] := by
        rw [List.filter_eq_nil_iff]
        intro a ha
        simp only [decide_eq_true_eq]
        intro haeq
        exact hnot (List.mem_map.mpr ⟨a, ha, haeq⟩)
      rw [hnil]
      simp
    · rw [List.filter_cons_of_neg (by simpa using hd)]
      rw [ih hrest]
      have hcond : (d ∈ (s :: rest).map (·.DocumentID)) ↔ (d ∈ rest.map (·.DocumentID)) := by
        simp only [List.map_cons, List.mem_cons]
        constructor
        · rintro (h1 | h1)
          · exact absurd h1.symm hd
          · exact h1
        · exact Or.inr
      rw [if_congr hcond rfl rfl]

instance : IsTotal Source (fun a b => b.Score ≤ a.Score) :=
  ⟨fun a b => le_total b.Score a.Score⟩

instance : IsTrans Source (fun a b => b.Score ≤ a.Score) :=
  ⟨fun _ _ _ hab hbc => le_trans hbc hab⟩

/-! ### Claim C3 -/

/-- C3: `mergeSources` returns exactly one source per distinct document id of
the input chunks, each source's score is the (attained) maximum score among
its document's chunks, and the result is sorted in non-increasing score
order. -/
theorem mergeSources_groups_max_sorted (chunks : List ChunkResult)
    (insights : List (String × DocumentInsight)) :
    (∀ d, ((mergeSources chunks insights).filter fun s => s.DocumentID = d).length =
        if d ∈ chunks.map (·.DocumentID) then 1 else 0) ∧
    (∀ s ∈ mergeSources chunks insights,
      (∀ c ∈ chunks, c.DocumentID = s.DocumentID → c.Score ≤ s.Score) ∧
      (∃ c ∈ chunks, c.DocumentID = s.DocumentID ∧ c.Score = s.Score)) ∧
    List.Chain' (fun a b => b.Score ≤ a.Score) (mergeSources chunks insights) := by
  have hinv := mergeFold_inv insights chunks [] [] ⟨by simp, by simp, by simp⟩
  rw [List.nil_append] at hinv
  obtain ⟨hnodup, hmemiff, hscores⟩ := hinv
  have hdef : mergeSources chunks insights =
      (chunks.foldl (mergeStep insights) []).insertionSort (fun a b => b.Score ≤ a.Score) := rfl
  have hperm := List.perm_insertionSort (fun a b : Source => b.Score ≤ a.Score)
    (chunks.foldl (mergeStep insights) [])
  refine ⟨?_, ?_, ?_⟩
  · intro d
    rw [hdef, (hperm.filter _).length_eq, nodup_filter_length _ _ hnodup,
      if_congr (hmemiff d) rfl rfl]
  · intro s hs
    rw [hdef] at hs
    exact hscores s (hperm.mem_iff.mp hs)
  · rw [hdef]
    exact (List.sorted_insertionSort _ _).chain'

/-- The content of a line when the `ChunkMarkdown` loop treats it as a
level-1 heading (non-blank, `#`-prefixed, heading level ≤ 1, non-empty
title), mirroring the branch conditions of `mdStep`. -/
def h1Of (raw : String) : Option String :=
  let line := goTrim raw
  if line = "" then none
  else if goHasPrefix line "#" then
    let lvl := headingLevel line
    let title := goTrim (String.mk (line.data.drop lvl))
    if title = "" then none
    else if lvl ≤ 1 then some title else none
  else none

/-- One loop iteration updates the intro title exactly on level-1 headings. -/
theorem mdStep_introTitle (st : MdState) (raw : String) :
    (mdStep st raw).introTitle = (h1Of raw).getD st.introTitle := by
  unfold mdStep h1Of
  dsimp only
  split_ifs <;> rfl

/-- The intro title after the loop is the last level-1 heading title. -/
theorem mdFold_introTitle :
    ∀ (lines : List String) (st : MdState),
      (lines.foldl mdStep st).introTitle =
        (lines.filterMap h1Of).getLastD st.introTitle := by
  intro lines
  induction lines with
  | nil => intro st; rfl
  | cons l rest ih =>
    intro st
    rw [List.foldl_cons, ih, List.filterMap_cons]
    cases h : h1Of l with
    | none => rw [mdStep_introTitle, h, Option.getD_none]
    | some t => rw [List.getLastD_cons, mdStep_introTitle, h, Option.getD_some]

/-- `introUsed` is monotone along the loop. -/
theorem mdStep_introUsed_mono (st : MdState) (raw : String)
    (h : st.introUsed = true) : (mdStep st raw).introUsed = true := by
  unfold mdStep
  dsimp only
  split_ifs <;> simp [h]

/-- A level-1 heading line sets `introUsed`. -/
theorem mdStep_introUsed_h1 (st : MdState) (raw : String) (t : String)
    (h : h1Of raw = some t) : (mdStep st raw).introUsed = true := by
  unfold h1Of at h
  unfold mdStep
  dsimp only at h ⊢
  split_ifs at h ⊢
  all_goals simp_all

/-- After scanning, `introUsed` holds whenever some level-1 heading occurs. -/
theorem mdFold_introUsed_of_h1 :
    ∀ (lines : List String) (st : MdState),
      lines.filterMap h1Of ≠ [] → (lines.foldl mdStep st).introUsed = true := by
  intro lines
  induction lines with
  | nil => intro st h; exact absurd rfl h
  | cons l rest ih =>
    intro st h
    rw [List.foldl_cons]
    cases hl : h1Of l with
    | none =>
      rw [List.filterMap_cons, hl] at h
      exact ih (mdStep st l) h
    | some t =>
      exact mdFold_inv (fun st' raw' => mdStep_introUsed_mono st' raw') rest _
        (mdStep_introUsed_h1 st l t hl)

/-- Section invariant of the `ChunkMarkdown` loop: collected sections have
orders between 1 and the running counter, strictly increasing, the counter is
non-negative, and `introUsed` holds exactly when some collected paragraph
unit carries an order-0 section. -/
def mdSecInv (st : MdState) : Prop :=
  (∀ s ∈ st.sections, 1 ≤ s.Order ∧ s.Order ≤ st.sectionOrder) ∧
  List.Chain' (· < ·) (st.sections.map (·.Order)) ∧
  0 ≤ st.sectionOrder ∧
  (st.introUsed = true ↔ ∃ u ∈ st.paragraphs, u.Section.Order = 0)

/-- One loop iteration preserves the section invariant. -/
theorem mdStep_sec_inv (st : MdState) (raw : String) (h : mdSecInv st) :
    mdSecInv (mdStep st raw) := by
  obtain ⟨hbound, hchain, hso, hintro⟩ := h
  unfold mdStep
  dsimp only
  split_ifs with h1 h2 h3 h4 h5
  · exact ⟨hbound, hchain, hso, hintro⟩
  · exact ⟨hbound, hchain, hso, hintro⟩
  · -- level-1 heading: sections untouched, introUsed set, order-0 unit added
    refine ⟨hbound, hchain, hso, ?_⟩
    dsimp only
    simp only [eq_self_iff_true, true_iff]
    exact ⟨⟨goTrim (String.mk ((goTrim raw).data.drop (headingLevel (goTrim raw)))),
      ⟨_, 1, 0⟩⟩, List.mem_append_right _ (List.mem_singleton.mpr rfl), rfl⟩
  · -- level ≥ 2 heading adding a topic
    refine ⟨?_, ?_, ?_, ?_⟩ <;> dsimp only
    · intro s hs
      rcases List.mem_append.mp hs with hm | hm
      · obtain ⟨hl, hu⟩ := hbound s hm
        exact ⟨hl, by omega⟩
      · rw [List.mem_singleton.mp hm]
        exact ⟨by dsimp only; omega, le_refl _⟩
    · rw [List.map_append]
      refine List.chain'_append.mpr ⟨hchain, List.chain'_singleton _, ?_⟩
      intro x hx y hy
      simp only [List.map_cons, List.map_nil, List.head?_cons, Option.mem_def,
        Option.some_inj] at hy
      subst hy
      have hxmem : x ∈ st.sections.map (·.Order) := List.mem_of_mem_getLast? hx
      obtain ⟨s, hs, hsx⟩ := List.mem_map.mp hxmem
      have hle := (hbound s hs).2
      rw [hsx] at hle
      omega
    · omega
    · rw [hintro]
      constructor
      · rintro ⟨u, hu, hu0⟩
        exact ⟨u, List.mem_append_left _ hu, hu0⟩
      · rintro ⟨u, hu, hu0⟩
        rcases List.mem_append.mp hu with hm | hm
        · exact ⟨u, hm, hu0⟩
        · rw [List.mem_singleton.mp hm] at hu0
          dsimp only at hu0
          omega
  · -- level ≥ 2 heading, topic already seen
    refine ⟨?_, ?_, ?_, ?_⟩ <;> dsimp only
    · intro s hs
      rcases List.mem_append.mp hs with hm | hm
      · obtain ⟨hl, hu⟩ := hbound s hm
        exact ⟨hl, by omega⟩
      · rw [List.mem_singleton.mp hm]
        exact ⟨by dsimp only; omega, le_refl _⟩
    · rw [List.map_append]
      refine List.chain'_append.mpr ⟨hchain, List.chain'_singleton _, ?_⟩
      intro x hx y hy
      simp only [List.map_cons, List.map_nil, List.head?_cons, Option.mem_def,
        Option.some_inj] at hy
      subst hy
      have hxmem : x ∈ st.sections.map (·.Order) := List.mem_of_mem_getLast? hx
      obtain ⟨s, hs, hsx⟩ := List.mem_map.mp hxmem
      have hle := (hbound s hs).2
      rw [hsx] at hle
      omega
    · omega
    · rw [hintro]
      constructor
      · rintro ⟨u, hu, hu0⟩
        exact ⟨u, List.mem_append_left _ hu, hu0⟩
      · rintro ⟨u, hu, hu0⟩
        rcases List.mem_append.mp hu with hm | hm
        · exact ⟨u, hm, hu0⟩
        · rw [List.mem_singleton.mp hm] at hu0
          dsimp only at hu0
          omega
  · -- plain paragraph line
    refine ⟨hbound, hchain, hso, ?_⟩
    dsimp only
    simp only [decide_eq_true_eq]
    rw [hintro]
    constructor
    · rintro (⟨u, hu, hu0⟩ | hcs)
      · exact ⟨u, List.mem_append_left _ hu, hu0⟩
      · exact ⟨⟨goTrim raw, st.currentSection⟩,
          List.mem_append_right _ (List.mem_singleton.mpr rfl), hcs⟩
    · rintro ⟨u, hu, hu0⟩
      rcases List.mem_append.mp hu with hm | hm
      · exact Or.inl ⟨u, hm, hu0⟩
      · rw [List.mem_singleton.mp hm] at hu0
        exact Or.inr hu0

/-- The scan of any content satisfies the section invariant. -/
theorem mdScan_sec_inv (content : String) : mdSecInv (mdScan content) := by
  refine mdFold_inv mdStep_sec_inv (mdLines content) mdInit ?_
  refine ⟨by simp [mdInit], by simp [mdInit], by simp [mdInit], ?_⟩
  simp [mdInit]

/-! ### Claim C6 -/

/-- C6: the sections returned by `ChunkMarkdown` have strictly increasing
orders, contain at most one order-0 (lead) section, any order-0 section is
first, and a lead section is present exactly when some paragraph unit was
tagged with the order-0 section. -/
theorem chunkMarkdown_sections_invariant (content : String) (target overlap : Int) :
    List.Chain' (fun a b => a.Order < b.Order) (ChunkMarkdown content target overlap).2.1 ∧
    ((ChunkMarkdown content target overlap).2.1.filter fun s => s.Order = 0).length ≤ 1 ∧
    (∀ s ∈ (ChunkMarkdown content target overlap).2.1, s.Order = 0 →
      (ChunkMarkdown content target overlap).2.1.head? = some s) ∧
    ((∃ s ∈ (ChunkMarkdown content target overlap).2.1, s.Order = 0) ↔
      ∃ u ∈ markdownUnits content, u.Section.Order = 0) := by
  obtain ⟨hbound, hchain, hso, hintro⟩ := mdScan_sec_inv content
  have hsecdef : (ChunkMarkdown content target overlap).2.1 =
      if (mdScan content).introUsed then
        (⟨(mdScan content).introTitle, 1, 0⟩ : SectionMeta) :: (mdScan content).sections
      else (mdScan content).sections := rfl
  have hfilter_nil : ((mdScan content).sections.filter fun s => s.Order = 0) = [] := by
    rw [List.filter_eq_nil_iff]
    intro s hs
    have := (hbound s hs).1
    simp only [decide_eq_true_eq]
    omega
  have hchain_meta : List.Chain' (fun a b => a.Order < b.Order) (mdScan content).sections :=
    (List.chain'_map fun s : SectionMeta => s.Order).mp hchain
  by_cases hused : (mdScan content).introUsed = true
  · rw [hsecdef, if_pos hused]
    refine ⟨?_, ?_, ?_, ?_⟩
    · refine List.chain'_cons'.mpr ⟨?_, hchain_meta⟩
      intro y hy
      have hymem : y ∈ (mdScan content).sections := List.mem_of_mem_head? hy
      exact (hbound y hymem).1
    · rw [List.filter_cons_of_pos (by simp), hfilter_nil]
      simp
    · intro s hs hs0
      rcases List.mem_cons.mp hs with hm | hm
      · rw [hm, List.head?_cons]
      · have := (hbound s hm).1
        omega
    · rw [markdownUnits, ← hintro]
      simp only [hused, true_iff, iff_true]
      exact ⟨⟨(mdScan content).introTitle, 1, 0⟩, List.mem_cons_self _ _, rfl⟩
  · rw [hsecdef, if_neg hused]
    refine ⟨hchain_meta, ?_, ?_, ?_⟩
    · rw [hfilter_nil]
      simp
    · intro s hs hs0
      have := (hbound s hs).1
      omega
    · rw [markdownUnits, ← hintro]
      constructor
      · rintro ⟨s, hs, hs0⟩
        have := (hbound s hs).1
        omega
      · intro h
        exact absurd h (by simpa using hused)

/-- C6 witness: the order-0 section of a concrete document is first. -/
theorem chunkMarkdown_sections_invariant_witness :
    (ChunkMarkdown "# T\n## A" 1000 200).2.1.head? = some ⟨"T", 1, 0⟩ :=
  (chunkMarkdown_sections_invariant "# T\n## A" 1000 200).2.2.1 ⟨"T", 1, 0⟩
    (by decide) (by decide)

/-! ### Claim C10 -/

/-- C10: with at least one (in particular, two or more) level-1 headings,
`ChunkMarkdown` returns exactly one order-0 section, titled after the *last*
level-1 heading; and on a concrete two-`h1` document, the fragment produced
before the rename keeps the earlier title `"A"` in its section metadata while
the sections list shows only `"B"`. -/
theorem chunkMarkdown_lead_section_rename :
    (∀ (content : String) (target overlap : Int),
      (mdLines content).filterMap h1Of ≠ [] →
      ((ChunkMarkdown content target overlap).2.1.filter fun s => s.Order = 0) =
        [⟨((mdLines content).filterMap h1Of).getLastD "Introduction", 1, 0⟩]) ∧
    ((ChunkMarkdown "# A\n\npara one\n\n# B\n\npara two" 9 0).1.map
        fun f => (f.Text, f.Section.Title)) =
      [("A\n\npara one", "A"), ("B\n\npara two", "B")] ∧
    (ChunkMarkdown "# A\n\npara one\n\n# B\n\npara two" 9 0).2.1 = [⟨"B", 1, 0⟩] := by
  refine ⟨?_, by decide, by decide⟩
  intro content target overlap hne
  obtain ⟨hbound, hchain, hso, hintro⟩ := mdScan_sec_inv content
  have hused : (mdScan content).introUsed = true :=
    mdFold_introUsed_of_h1 (mdLines content) mdInit hne
  have htitle : (mdScan content).introTitle =
      ((mdLines content).filterMap h1Of).getLastD "Introduction" :=
    mdFold_introTitle (mdLines content) mdInit
  have hsecdef : (ChunkMarkdown content target overlap).2.1 =
      if (mdScan content).introUsed then
        (⟨(mdScan content).introTitle, 1, 0⟩ : SectionMeta) :: (mdScan content).sections
      else (mdScan content).sections := rfl
  have hfilter_nil : ((mdScan content).sections.filter fun s => s.Order = 0) = [] := by
    rw [List.filter_eq_nil_iff]
    intro s hs
    have := (hbound s hs).1
    simp only [decide_eq_true_eq]
    omega
  rw [hsecdef, if_pos hused, List.filter_cons_of_pos (by simp), hfilter_nil, htitle]

/-- C10 witness: the general part applied at a concrete two-`h1` document. -/
theorem chunkMarkdown_lead_section_rename_witness :
    ((ChunkMarkdown "# A\n# B" 5 0).2.1.filter fun s => s.Order = 0) =
      [⟨((mdLines "# A\n# B").filterMap h1Of).getLastD "Introduction", 1, 0⟩] :=
  chunkMarkdown_lead_section_rename.1 "# A\n# B" 5 0 (by decide)

end GoAgent
